import Mathlib

/-!
# Verification of the LocalLens in-memory TTL cache

Shallow embedding of `backend/core/cache.py` (`InMemoryCache`): a pair of
Python dicts `_cache : key → value` and `_expiry : key → absolute expiry time`,
with operations `get`, `set`, `delete`, `clear`, `get_stats`.

Python dicts are modelled as association lists over `String` keys with no
duplicated keys (an invariant every construction here preserves); wall-clock
instants (`datetime.now()`) and TTLs (`timedelta(seconds=...)`) are modelled
as integers, passed to each operation as an explicit `now` argument.  Python
values (the cache is value-type-agnostic, and `None` is a value) are modelled
by the inductive `PyVal`, whose `PyVal.none` constructor is Python's `None` —
also the result `get` produces for an absent key.
-/

namespace LocalLens

/-- A Python runtime value, as far as the cache is concerned: `None`, or some
ordinary data (here numbers and strings; the cache code never inspects the
values, so this choice of carriers is immaterial). -/
inductive PyVal where
  | none : PyVal
  | int : Int → PyVal
  | str : String → PyVal
  deriving DecidableEq, Repr

/-- `d[k]` / `k in d` for a Python dict modelled as an association list:
the value at the first entry whose key is `k`, if any. -/
def dictLookup {α : Type} : List (String × α) → String → Option α
  | [], _ => Option.none
  | (k', v) :: rest, k => if k' = k then Option.some v else dictLookup rest k

/-- `del d[k]`: remove every entry whose key is `k` (at most one, since a
Python dict never holds duplicate keys). -/
def dictErase {α : Type} (l : List (String × α)) (k : String) : List (String × α) :=
  l.filter (fun p => decide (p.1 ≠ k))

/-- `d[k] = v`: overwrite the entry for `k`.  Position in the list is
irrelevant here (only lookups and counts are observed), so the fresh binding
is put in front of the remaining entries. -/
def dictInsert {α : Type} (l : List (String × α)) (k : String) (v : α) :
    List (String × α) :=
  (k, v) :: dictErase l k

/-- The keys of a dict are pairwise distinct. -/
def NodupKeys {α : Type} (l : List (String × α)) : Prop :=
  (l.map Prod.fst).Nodup

instance {α : Type} (l : List (String × α)) : Decidable (NodupKeys l) :=
  inferInstanceAs (Decidable (l.map Prod.fst).Nodup)

/-- State of `InMemoryCache`: the value dict `_cache` and the expiry dict
`_expiry` (absolute instants, absent entry = no expiration). -/
structure InMemoryCache where
  _cache : List (String × PyVal)
  _expiry : List (String × Int)
  deriving DecidableEq, Repr

/-- `InMemoryCache.__init__`: both dicts start empty. -/
def InMemoryCache.init : InMemoryCache := ⟨[], []⟩

/-- `InMemoryCache.get`: if the key is present and carries an expiry strictly
in the past, delete both entries and return `None`; if present and not
expired (or with no expiry at all), return the stored value; otherwise
return `None`.  Returns the post-state together with the returned value. -/
def InMemoryCache.get (self : InMemoryCache) (now : Int) (key : String) :
    InMemoryCache × PyVal :=
  match dictLookup self._cache key with
  | Option.some v =>
    match dictLookup self._expiry key with
    | Option.some e =>
      if now > e then
        (⟨dictErase self._cache key, dictErase self._expiry key⟩, PyVal.none)
      else
        (self, v)
    | Option.none => (self, v)
  | Option.none => (self, PyVal.none)

/-- `InMemoryCache.set`: store the value unconditionally; store the expiry
`now + expire_seconds` only when `expire_seconds > 0` (the source leaves
`_expiry` untouched otherwise). -/
def InMemoryCache.set (self : InMemoryCache) (now : Int) (key : String)
    (value : PyVal) (expire_seconds : Int) : InMemoryCache :=
  let c1 : InMemoryCache := ⟨dictInsert self._cache key value, self._expiry⟩
  if expire_seconds > 0 then
    ⟨c1._cache, dictInsert c1._expiry key (now + expire_seconds)⟩
  else
    c1

/-- `InMemoryCache.delete`: drop the value entry if present, then drop the
expiry entry if present; no error on an absent key. -/
def InMemoryCache.delete (self : InMemoryCache) (key : String) : InMemoryCache :=
  let c1 : InMemoryCache :=
    if (dictLookup self._cache key).isSome then
      ⟨dictErase self._cache key, self._expiry⟩
    else
      self
  if (dictLookup c1._expiry key).isSome then
    ⟨c1._cache, dictErase c1._expiry key⟩
  else
    c1

/-- `InMemoryCache.clear`: empty both dicts. -/
def InMemoryCache.clear (self : InMemoryCache) : InMemoryCache :=
  let _ := self
  ⟨[], []⟩

/-- Result record of `InMemoryCache.get_stats`. -/
structure CacheStats where
  total_keys : Int
  expired_keys : Int
  active_keys : Int
  deriving DecidableEq, Repr

/-- `InMemoryCache.get_stats`: `total_keys` is the size of `_cache`,
`expired_keys` counts expiry entries strictly in the past, `active_keys` is
their difference.  The method mutates nothing, so the post-state is the
receiver unchanged. -/
def InMemoryCache.get_stats (self : InMemoryCache) (now : Int) :
    InMemoryCache × CacheStats :=
  let total_keys : Int := self._cache.length
  let expired_keys : Int := (self._expiry.filter (fun p => decide (now > p.2))).length
  (self, ⟨total_keys, expired_keys, total_keys - expired_keys⟩)

/-! ## Basic dictionary lemmas -/

theorem dictLookup_erase_self {α : Type} (l : List (String × α)) (k : String) :
    dictLookup (dictErase l k) k = Option.none := by
  induction l with
  | nil => rfl
  | cons p rest ih =>
    by_cases h : p.1 = k
    · simpa [dictErase, dictLookup, h] using ih
    · simpa [dictErase, dictLookup, h] using ih

theorem dictLookup_erase_ne {α : Type} (l : List (String × α)) {k k' : String}
    (h : k' ≠ k) : dictLookup (dictErase l k) k' = dictLookup l k' := by
  induction l with
  | nil => rfl
  | cons p rest ih =>
    rcases p with ⟨pk, pv⟩
    by_cases hp : pk = k
    · have hcond : ¬pk = k' := by
        rw [hp]
        intro hh
        exact h hh.symm
      have h1 : dictErase ((pk, pv) :: rest) k = dictErase rest k := by
        simp [dictErase, hp]
      rw [h1, ih]
      simp [dictLookup, hcond]
    · have h2 : dictErase ((pk, pv) :: rest) k = (pk, pv) :: dictErase rest k := by
        simp [dictErase, hp]
      rw [h2]
      by_cases hpk' : pk = k'
      · simp [dictLookup, hpk']
      · simp [dictLookup, hpk', ih]

theorem dictLookup_insert_self {α : Type} (l : List (String × α)) (k : String)
    (v : α) : dictLookup (dictInsert l k v) k = Option.some v := by
  simp [dictInsert, dictLookup]

theorem dictLookup_insert_ne {α : Type} (l : List (String × α)) {k k' : String}
    (v : α) (h : k' ≠ k) :
    dictLookup (dictInsert l k v) k' = dictLookup l k' := by
  have hk : k ≠ k' := fun hh => h hh.symm
  simp [dictInsert, dictLookup, hk]
  exact dictLookup_erase_ne l h

theorem dictLookup_cons {α : Type} (pk : String) (pv : α)
    (rest : List (String × α)) (k : String) :
    dictLookup ((pk, pv) :: rest) k =
      if pk = k then Option.some pv else dictLookup rest k := rfl

theorem dictErase_cons {α : Type} (pk : String) (pv : α)
    (rest : List (String × α)) (k : String) :
    dictErase ((pk, pv) :: rest) k =
      if pk = k then dictErase rest k else (pk, pv) :: dictErase rest k := by
  by_cases hp : pk = k
  · simp [dictErase, hp]
  · simp [dictErase, hp]

theorem dictLookup_eq_none_iff {α : Type} (l : List (String × α)) (k : String) :
    dictLookup l k = Option.none ↔ k ∉ l.map Prod.fst := by
  induction l with
  | nil => simp [dictLookup]
  | cons p rest ih =>
    rcases p with ⟨pk, pv⟩
    rw [dictLookup_cons]
    by_cases hp : pk = k
    · simp only [if_pos hp, List.map_cons, List.mem_cons]
      constructor
      · intro h
        exact Option.noConfusion h
      · intro h
        exact absurd (Or.inl hp.symm) h
    · simp only [if_neg hp, List.map_cons, List.mem_cons]
      rw [ih]
      constructor
      · intro h hmem
        rcases hmem with hmem | hmem
        · exact hp hmem.symm
        · exact h hmem
      · intro h hmem
        exact h (Or.inr hmem)

theorem dictLookup_isSome_iff {α : Type} (l : List (String × α)) (k : String) :
    (dictLookup l k).isSome ↔ k ∈ l.map Prod.fst := by
  cases hl : dictLookup l k with
  | none =>
    simp only [Option.isSome_none, Bool.false_eq_true, false_iff]
    exact (dictLookup_eq_none_iff l k).mp hl
  | some v =>
    simp only [Option.isSome_some, true_iff]
    by_contra hmem
    have hnone := (dictLookup_eq_none_iff l k).mpr hmem
    rw [hl] at hnone
    exact Option.noConfusion hnone

theorem dictErase_of_not_mem {α : Type} {l : List (String × α)} {k : String}
    (h : k ∉ l.map Prod.fst) : dictErase l k = l := by
  induction l with
  | nil => rfl
  | cons p rest ih =>
    rcases p with ⟨pk, pv⟩
    simp only [List.map_cons, List.mem_cons, not_or] at h
    have hp : ¬pk = k := fun hh => h.1 hh.symm
    rw [dictErase_cons, if_neg hp, ih h.2]

theorem keys_erase_sublist {α : Type} (l : List (String × α)) (k : String) :
    ((dictErase l k).map Prod.fst).Sublist (l.map Prod.fst) :=
  ((l.filter_sublist).map Prod.fst)

theorem nodupKeys_erase {α : Type} {l : List (String × α)} (k : String)
    (h : NodupKeys l) : NodupKeys (dictErase l k) :=
  List.Nodup.sublist (keys_erase_sublist l k) h

theorem not_mem_keys_erase {α : Type} (l : List (String × α)) (k : String) :
    k ∉ (dictErase l k).map Prod.fst := by
  intro hmem
  rw [← dictLookup_isSome_iff, dictLookup_erase_self] at hmem
  simp at hmem

theorem nodupKeys_insert {α : Type} {l : List (String × α)} (k : String) (v : α)
    (h : NodupKeys l) : NodupKeys (dictInsert l k v) := by
  unfold NodupKeys dictInsert
  simp only [List.map_cons, List.nodup_cons]
  exact ⟨not_mem_keys_erase l k, nodupKeys_erase k h⟩

theorem length_erase {α : Type} {l : List (String × α)} {k : String} {v : α}
    (hnd : NodupKeys l) (hv : dictLookup l k = Option.some v) :
    (dictErase l k).length + 1 = l.length := by
  induction l with
  | nil => exact Option.noConfusion hv
  | cons p rest ih =>
    rcases p with ⟨pk, pv⟩
    unfold NodupKeys at hnd
    simp only [List.map_cons, List.nodup_cons] at hnd
    rw [dictErase_cons]
    by_cases hp : pk = k
    · rw [if_pos hp]
      have hrest : k ∉ rest.map Prod.fst := by
        rw [← hp]; exact hnd.1
      rw [dictErase_of_not_mem hrest]
      simp
    · rw [if_neg hp]
      have hv' : dictLookup rest k = Option.some v := by
        rw [dictLookup_cons, if_neg hp] at hv
        exact hv
      simp only [List.length_cons]
      exact congrArg (· + 1) (ih hnd.2 hv')

theorem length_le_of_nodup_keys_subset {α β : Type} {l₁ : List (String × α)}
    {l₂ : List (String × β)} (hnd : NodupKeys l₁)
    (hsub : ∀ k, k ∈ l₁.map Prod.fst → k ∈ l₂.map Prod.fst) :
    l₁.length ≤ l₂.length := by
  have h1 : (l₁.map Prod.fst).length ≤ (l₂.map Prod.fst).length :=
    (List.Nodup.subperm hnd hsub).length_le
  simpa using h1

/-! ## Characterization of `get` by cases -/

theorem get_absent (c : InMemoryCache) (now : Int) (k : String)
    (h : dictLookup c._cache k = Option.none) :
    c.get now k = (c, PyVal.none) := by
  simp [InMemoryCache.get, h]

theorem get_no_expiry (c : InMemoryCache) (now : Int) (k : String) (v : PyVal)
    (hv : dictLookup c._cache k = Option.some v)
    (he : dictLookup c._expiry k = Option.none) :
    c.get now k = (c, v) := by
  simp [InMemoryCache.get, hv, he]

theorem get_live (c : InMemoryCache) (now : Int) (k : String) (v : PyVal)
    (e : Int) (hv : dictLookup c._cache k = Option.some v)
    (he : dictLookup c._expiry k = Option.some e) (hle : ¬now > e) :
    c.get now k = (c, v) := by
  simp [InMemoryCache.get, hv, he, hle]

theorem get_expired (c : InMemoryCache) (now : Int) (k : String) (v : PyVal)
    (e : Int) (hv : dictLookup c._cache k = Option.some v)
    (he : dictLookup c._expiry k = Option.some e) (hgt : now > e) :
    c.get now k = (⟨dictErase c._cache k, dictErase c._expiry k⟩, PyVal.none) := by
  simp [InMemoryCache.get, hv, he, hgt]

theorem set_cache_pos {c : InMemoryCache} {now t : Int} (k : String) (v : PyVal)
    (ht : 0 < t) :
    c.set now k v t =
      ⟨dictInsert c._cache k v, dictInsert c._expiry k (now + t)⟩ := by
  simp [InMemoryCache.set, ht]

theorem set_cache_nonpos {c : InMemoryCache} {now t : Int} (k : String) (v : PyVal)
    (ht : t ≤ 0) :
    c.set now k v t = ⟨dictInsert c._cache k v, c._expiry⟩ := by
  have : ¬t > 0 := not_lt.mpr ht
  simp [InMemoryCache.set, this]

/-! ## Claims -/

/-- C4: after `set(k, v, ttl)` with `ttl > 0`, a `get(k)` performed before
`ttl` seconds have elapsed returns exactly `v`, unchanged. -/
theorem set_get_roundtrip (c : InMemoryCache) (now now2 ttl : Int) (k : String)
    (v : PyVal) (httl : 0 < ttl) (hfresh : now2 < now + ttl) :
    ((c.set now k v ttl).get now2 k).2 = v := by
  rw [set_cache_pos k v httl]
  rw [get_live _ now2 k v (now + ttl) (dictLookup_insert_self _ _ _)
    (dictLookup_insert_self _ _ _) (not_lt.mpr hfresh.le)]

/-- Witness for C4 at key "k", value "v", ttl 3600, set at 0 and read at 1. -/
theorem set_get_roundtrip_witness :
    ((InMemoryCache.init.set 0 "k" (PyVal.str "v") 3600).get 1 "k").2 =
      PyVal.str "v" :=
  set_get_roundtrip InMemoryCache.init 0 1 3600 "k" (PyVal.str "v")
    (by decide) (by decide)

/-- C5: expiry is judged by the strict comparison `now > expires_at` in both
`get` and `get_stats`: a `get` at the exact expiry instant (or any instant up
to it) still returns the stored value with the store untouched, only strictly
later instants miss, and `get_stats` counts the entry as expired exactly for
strictly later instants. -/
theorem expiry_boundary_strict (c : InMemoryCache) (k : String) (v : PyVal)
    (e : Int) (hv : dictLookup c._cache k = Option.some v)
    (he : dictLookup c._expiry k = Option.some e) :
    c.get e k = (c, v) ∧
    (∀ now, now ≤ e → c.get now k = (c, v)) ∧
    (∀ now, e < now → (c.get now k).2 = PyVal.none) ∧
    ((InMemoryCache.mk [(k, v)] [(k, e)]).get_stats e).2.expired_keys = 0 ∧
    (∀ now, e < now →
      ((InMemoryCache.mk [(k, v)] [(k, e)]).get_stats now).2.expired_keys = 1) := by
  refine ⟨get_live c e k v e hv he (lt_irrefl e), ?_, ?_, ?_, ?_⟩
  · intro now hle
    exact get_live c now k v e hv he (not_lt.mpr hle)
  · intro now hlt
    rw [get_expired c now k v e hv he hlt]
  · simp [InMemoryCache.get_stats]
  · intro now hlt
    simp [InMemoryCache.get_stats, hlt]

/-- Witness for C5 on the one-entry store mapping "k" to 3 with expiry 10:
the read at instant 10 still succeeds. -/
theorem expiry_boundary_strict_witness :
    (InMemoryCache.mk [("k", PyVal.int 3)] [("k", (10 : Int))]).get 10 "k" =
      (InMemoryCache.mk [("k", PyVal.int 3)] [("k", (10 : Int))], PyVal.int 3) :=
  (expiry_boundary_strict (InMemoryCache.mk [("k", PyVal.int 3)] [("k", (10 : Int))])
    "k" (PyVal.int 3) 10 (by decide) (by decide)).1

/-- C3: a `get` on a key whose expiry is strictly past returns absent
(`None`), physically removes both the value entry and the expiry entry, and a
subsequent `get_stats` counts one key fewer in `total_keys`. -/
theorem get_expired_evicts (c : InMemoryCache) (now : Int) (k : String)
    (v : PyVal) (e : Int) (hnd : NodupKeys c._cache)
    (hv : dictLookup c._cache k = Option.some v)
    (he : dictLookup c._expiry k = Option.some e) (hgt : now > e) :
    (c.get now k).2 = PyVal.none ∧
    dictLookup (c.get now k).1._cache k = Option.none ∧
    dictLookup (c.get now k).1._expiry k = Option.none ∧
    ((c.get now k).1.get_stats now).2.total_keys =
      (c.get_stats now).2.total_keys - 1 := by
  rw [get_expired c now k v e hv he hgt]
  refine ⟨rfl, dictLookup_erase_self _ _, dictLookup_erase_self _ _, ?_⟩
  have h1 := length_erase hnd hv
  simp only [InMemoryCache.get_stats]
  omega

/-- Witness for C3: a store holding "k" with expiry 0, read at instant 1. -/
theorem get_expired_evicts_witness :
    ((InMemoryCache.mk [("k", PyVal.int 1)] [("k", (0 : Int))]).get 1 "k").2 =
      PyVal.none :=
  (get_expired_evicts (InMemoryCache.mk [("k", PyVal.int 1)] [("k", (0 : Int))])
    1 "k" (PyVal.int 1) 0 (by decide) (by decide) (by decide) (by decide)).1

/-- C6: `get_stats` reports `total_keys` as the number of stored entries
(expired-but-unevicted ones included), `expired_keys` as the number of expiry
entries strictly before the current time, and `active_keys` as their
difference; it leaves the store unchanged, so repeating the call at the same
clock reading yields the same numbers. -/
theorem get_stats_spec (c : InMemoryCache) (now : Int) :
    (c.get_stats now).1 = c ∧
    (c.get_stats now).2.total_keys = (c._cache.length : Int) ∧
    (c.get_stats now).2.expired_keys =
      ((c._expiry.filter (fun p => decide (p.2 < now))).length : Int) ∧
    (c.get_stats now).2.active_keys =
      (c.get_stats now).2.total_keys - (c.get_stats now).2.expired_keys ∧
    ((c.get_stats now).1.get_stats now).2 = (c.get_stats now).2 := by
  exact ⟨rfl, rfl, rfl, rfl, rfl⟩

/-- C7: `delete` removes both the value and the expiry entry for the key, so
an immediately following `get` returns absent; on a key with no entries at
all it is a no-op returning the store unchanged (it is a total function, so
nothing is raised). -/
theorem delete_spec (c : InMemoryCache) (k : String) (now : Int) :
    dictLookup (c.delete k)._cache k = Option.none ∧
    dictLookup (c.delete k)._expiry k = Option.none ∧
    ((c.delete k).get now k).2 = PyVal.none ∧
    (dictLookup c._cache k = Option.none →
      dictLookup c._expiry k = Option.none → c.delete k = c) := by
  cases hc : dictLookup c._cache k with
  | none =>
    cases hex : dictLookup c._expiry k with
    | none =>
      have hd : c.delete k = c := by
        simp [InMemoryCache.delete, hc, hex]
      rw [hd]
      exact ⟨hc, hex, by rw [get_absent c now k hc], fun _ _ => rfl⟩
    | some e =>
      have hd : c.delete k = ⟨c._cache, dictErase c._expiry k⟩ := by
        simp [InMemoryCache.delete, hc, hex]
      rw [hd]
      refine ⟨hc, dictLookup_erase_self _ _, ?_, ?_⟩
      · rw [get_absent ⟨c._cache, dictErase c._expiry k⟩ now k hc]
      · intro _ h2
        exact Option.noConfusion h2
  | some v =>
    cases hex : dictLookup c._expiry k with
    | none =>
      have hd : c.delete k = ⟨dictErase c._cache k, c._expiry⟩ := by
        simp [InMemoryCache.delete, hc, hex]
      rw [hd]
      refine ⟨dictLookup_erase_self _ _, hex, ?_, ?_⟩
      · rw [get_absent ⟨dictErase c._cache k, c._expiry⟩ now k
          (dictLookup_erase_self _ _)]
      · intro h1 _
        exact Option.noConfusion h1
    | some e =>
      have hd : c.delete k = ⟨dictErase c._cache k, dictErase c._expiry k⟩ := by
        simp [InMemoryCache.delete, hc, hex]
      rw [hd]
      refine ⟨dictLookup_erase_self _ _, dictLookup_erase_self _ _, ?_, ?_⟩
      · rw [get_absent ⟨dictErase c._cache k, dictErase c._expiry k⟩ now k
          (dictLookup_erase_self _ _)]
      · intro h1 _
        exact Option.noConfusion h1

/-- Witness for C7: deleting the absent key "x" from the empty store leaves
it unchanged. -/
theorem delete_spec_witness :
    InMemoryCache.init.delete "x" = InMemoryCache.init :=
  (delete_spec InMemoryCache.init "x" 0).2.2.2 rfl rfl

/-- C8: `clear` empties the store unconditionally: afterwards `get_stats`
reports all zeros and `get` returns absent for every key. -/
theorem clear_spec (c : InMemoryCache) (now : Int) (k : String) :
    (c.clear.get_stats now).2 = ⟨0, 0, 0⟩ ∧
    (c.clear.get now k).2 = PyVal.none ∧
    dictLookup c.clear._cache k = Option.none := by
  refine ⟨rfl, ?_, rfl⟩
  rw [get_absent c.clear now k rfl]

/-- C10: a stored `None` value on a present, unexpired key is returned by
`get` as `None` — the very answer an absent key produces — so a cached null
is indistinguishable from a miss at the interface, while the entry stays
stored and `get_stats` keeps counting it. -/
theorem cached_none_indistinguishable (c : InMemoryCache) (now : Int)
    (k k2 : String) (hv : dictLookup c._cache k = Option.some PyVal.none)
    (hne : ∀ e, dictLookup c._expiry k = Option.some e → now ≤ e)
    (habs : dictLookup c._cache k2 = Option.none) :
    c.get now k = (c, PyVal.none) ∧
    (c.get now k).2 = (c.get now k2).2 ∧
    ((c.get now k).1.get_stats now).2.total_keys =
      (c.get_stats now).2.total_keys := by
  have hmain : c.get now k = (c, PyVal.none) := by
    cases hex : dictLookup c._expiry k with
    | none => exact get_no_expiry c now k PyVal.none hv hex
    | some e => exact get_live c now k PyVal.none e hv hex (not_lt.mpr (hne e hex))
  refine ⟨hmain, ?_, by rw [hmain]⟩
  rw [hmain, get_absent c now k2 habs]

/-- Witness for C10: the store holding only "k" ↦ None with no expiry, read
at instant 0, against the absent key "a". -/
theorem cached_none_indistinguishable_witness :
    (InMemoryCache.mk [("k", PyVal.none)] []).get 0 "k" =
      (InMemoryCache.mk [("k", PyVal.none)] [], PyVal.none) :=
  (cached_none_indistinguishable (InMemoryCache.mk [("k", PyVal.none)] []) 0
    "k" "a" (by decide) (fun e h => Option.noConfusion h) (by decide)).1

/-- C1 counterexample: setting "k" with ttl 1 at instant 0 and then setting
it again with ttl 0 leaves the first set's expiry (instant 1) in place,
although the claim demands no expiration when the second ttl is ≤ 0; indeed
the entry is already a miss at instant 2, not the fresh value 2. -/
theorem set_overwrite_cex :
    dictLookup ((InMemoryCache.init.set 0 "k" (PyVal.int 1) 1).set 0 "k"
      (PyVal.int 2) 0)._expiry "k" = Option.some 1 ∧
    (((InMemoryCache.init.set 0 "k" (PyVal.int 1) 1).set 0 "k"
      (PyVal.int 2) 0).get 2 "k").2 ≠ PyVal.int 2 := by
  decide

/-- C1 (amended): a second `set(k, v2, t2)` always replaces the value with
`v2`, and replaces the expiry with `now2 + t2` when `t2 > 0`; but when
`t2 ≤ 0` the expiry dict is left untouched, so the first set's expiry
`now1 + t1` survives if `t1 > 0`, and whatever expiry the key had before
both sets survives if `t1 ≤ 0` as well. -/
theorem set_overwrite_amended (c : InMemoryCache) (now1 now2 t1 t2 : Int)
    (k : String) (v1 v2 : PyVal) :
    dictLookup ((c.set now1 k v1 t1).set now2 k v2 t2)._cache k =
      Option.some v2 ∧
    (0 < t2 →
      dictLookup ((c.set now1 k v1 t1).set now2 k v2 t2)._expiry k =
        Option.some (now2 + t2)) ∧
    (t2 ≤ 0 → 0 < t1 →
      dictLookup ((c.set now1 k v1 t1).set now2 k v2 t2)._expiry k =
        Option.some (now1 + t1)) ∧
    (t2 ≤ 0 → t1 ≤ 0 →
      dictLookup ((c.set now1 k v1 t1).set now2 k v2 t2)._expiry k =
        dictLookup c._expiry k) := by
  refine ⟨?_, ?_, ?_, ?_⟩
  · by_cases h2 : 0 < t2
    · rw [set_cache_pos k v2 h2]
      exact dictLookup_insert_self _ _ _
    · rw [set_cache_nonpos k v2 (not_lt.mp h2)]
      exact dictLookup_insert_self _ _ _
  · intro h2
    rw [set_cache_pos k v2 h2]
    exact dictLookup_insert_self _ _ _
  · intro h2 h1
    rw [set_cache_nonpos k v2 h2, set_cache_pos k v1 h1]
    exact dictLookup_insert_self _ _ _
  · intro h2 h1
    rw [set_cache_nonpos k v2 h2, set_cache_nonpos k v1 h1]

/-- Witness for C1 (amended): an overwrite with positive ttl 7 at instant 3
ends with expiry 10 regardless of the first set's ttl. -/
theorem set_overwrite_amended_witness :
    dictLookup ((InMemoryCache.init.set 0 "k" (PyVal.int 1) 5).set 3 "k"
      (PyVal.int 2) 7)._expiry "k" = Option.some 10 :=
  (set_overwrite_amended InMemoryCache.init 0 3 5 7 "k" (PyVal.int 1)
    (PyVal.int 2)).2.1 (by decide)

/-- C2 counterexample: after `set("k", 7, 5)` at instant 0, a further
`set("k", 8, 0)` does not make the entry immortal as claimed — the `get` at
instant 1000000 returns `None`, not the stored value 8. -/
theorem zero_ttl_cex :
    (((InMemoryCache.init.set 0 "k" (PyVal.int 7) 5).set 0 "k"
      (PyVal.int 8) 0).get 1000000 "k").2 = PyVal.none ∧
    PyVal.none ≠ PyVal.int 8 := by
  decide

/-- C2 (amended): provided the key carries no expiry entry at the moment of
the set (for instance it was never set with a positive TTL), `set(k, v, t)`
with `t ≤ 0` makes `get(k)` at any later instant — arbitrarily far in the
future — return `v` and leave the entry in place. -/
theorem zero_ttl_fresh_never_expires (c : InMemoryCache) (now1 now2 t : Int)
    (k : String) (v : PyVal) (hexp : dictLookup c._expiry k = Option.none)
    (ht : t ≤ 0) :
    (c.set now1 k v t).get now2 k = (c.set now1 k v t, v) := by
  rw [set_cache_nonpos k v ht]
  exact get_no_expiry _ now2 k v (dictLookup_insert_self _ _ _) hexp

/-- Witness for C2 (amended): a zero-ttl set on a fresh key, read a million
seconds later. -/
theorem zero_ttl_fresh_never_expires_witness :
    (InMemoryCache.init.set 0 "k" (PyVal.int 9) 0).get 1000000 "k" =
      (InMemoryCache.init.set 0 "k" (PyVal.int 9) 0, PyVal.int 9) :=
  zero_ttl_fresh_never_expires InMemoryCache.init 0 1000000 0 "k"
    (PyVal.int 9) rfl (by decide)

/-! ## The domain-inclusion invariant (C9) -/

/-- Well-formedness of a cache state: both dicts have pairwise-distinct keys
(as Python dicts do by construction) and every key with an expiry entry also
has a value entry. -/
def WF (c : InMemoryCache) : Prop :=
  NodupKeys c._cache ∧ NodupKeys c._expiry ∧
  ∀ k, (dictLookup c._expiry k).isSome → (dictLookup c._cache k).isSome

theorem WF_init : WF InMemoryCache.init := by
  refine ⟨List.nodup_nil, List.nodup_nil, ?_⟩
  intro k h
  simp [InMemoryCache.init, dictLookup] at h

theorem WF_set (c : InMemoryCache) (now : Int) (k : String) (v : PyVal)
    (t : Int) (h : WF c) : WF (c.set now k v t) := by
  obtain ⟨h1, h2, h3⟩ := h
  by_cases ht : 0 < t
  · rw [set_cache_pos k v ht]
    refine ⟨nodupKeys_insert k v h1, nodupKeys_insert k _ h2, ?_⟩
    intro k' hk'
    by_cases hkk : k' = k
    · subst hkk
      simp [dictLookup_insert_self]
    · rw [dictLookup_insert_ne _ _ hkk] at hk'
      rw [dictLookup_insert_ne _ _ hkk]
      exact h3 k' hk'
  · rw [set_cache_nonpos k v (not_lt.mp ht)]
    refine ⟨nodupKeys_insert k v h1, h2, ?_⟩
    intro k' hk'
    by_cases hkk : k' = k
    · subst hkk
      simp [dictLookup_insert_self]
    · rw [dictLookup_insert_ne _ _ hkk]
      exact h3 k' hk'

theorem WF_get (c : InMemoryCache) (now : Int) (k : String) (h : WF c) :
    WF (c.get now k).1 := by
  obtain ⟨h1, h2, h3⟩ := h
  cases hv : dictLookup c._cache k with
  | none =>
    rw [get_absent c now k hv]
    exact ⟨h1, h2, h3⟩
  | some v =>
    cases hex : dictLookup c._expiry k with
    | none =>
      rw [get_no_expiry c now k v hv hex]
      exact ⟨h1, h2, h3⟩
    | some e =>
      by_cases hgt : now > e
      · rw [get_expired c now k v e hv hex hgt]
        refine ⟨nodupKeys_erase k h1, nodupKeys_erase k h2, ?_⟩
        intro k' hk'
        by_cases hkk : k' = k
        · subst hkk
          rw [dictLookup_erase_self] at hk'
          simp at hk'
        · rw [dictLookup_erase_ne _ hkk] at hk'
          rw [dictLookup_erase_ne _ hkk]
          exact h3 k' hk'
      · rw [get_live c now k v e hv hex hgt]
        exact ⟨h1, h2, h3⟩

theorem WF_delete (c : InMemoryCache) (k : String) (h : WF c) :
    WF (c.delete k) := by
  obtain ⟨h1, h2, h3⟩ := h
  cases hv : dictLookup c._cache k with
  | none =>
    cases hex : dictLookup c._expiry k with
    | none =>
      have hd : c.delete k = c := by
        simp [InMemoryCache.delete, hv, hex]
      rw [hd]
      exact ⟨h1, h2, h3⟩
    | some e =>
      have hd : c.delete k = ⟨c._cache, dictErase c._expiry k⟩ := by
        simp [InMemoryCache.delete, hv, hex]
      rw [hd]
      refine ⟨h1, nodupKeys_erase k h2, ?_⟩
      intro k' hk'
      by_cases hkk : k' = k
      · subst hkk
        rw [dictLookup_erase_self] at hk'
        simp at hk'
      · rw [dictLookup_erase_ne _ hkk] at hk'
        exact h3 k' hk'
  | some v =>
    cases hex : dictLookup c._expiry k with
    | none =>
      have hd : c.delete k = ⟨dictErase c._cache k, c._expiry⟩ := by
        simp [InMemoryCache.delete, hv, hex]
      rw [hd]
      refine ⟨nodupKeys_erase k h1, h2, ?_⟩
      intro k' hk'
      by_cases hkk : k' = k
      · subst hkk
        rw [hex] at hk'
        simp at hk'
      · rw [dictLookup_erase_ne _ hkk]
        exact h3 k' hk'
    | some e =>
      have hd : c.delete k = ⟨dictErase c._cache k, dictErase c._expiry k⟩ := by
        simp [InMemoryCache.delete, hv, hex]
      rw [hd]
      refine ⟨nodupKeys_erase k h1, nodupKeys_erase k h2, ?_⟩
      intro k' hk'
      by_cases hkk : k' = k
      · subst hkk
        rw [dictLookup_erase_self] at hk'
        simp at hk'
      · rw [dictLookup_erase_ne _ hkk] at hk'
        rw [dictLookup_erase_ne _ hkk]
        exact h3 k' hk'

theorem WF_clear (c : InMemoryCache) (_h : WF c) : WF c.clear := by
  have : c.clear = InMemoryCache.init := rfl
  rw [this]
  exact WF_init

theorem get_stats_bounds (c : InMemoryCache) (now : Int) (h : WF c) :
    (c.get_stats now).2.expired_keys ≤ (c.get_stats now).2.total_keys ∧
    0 ≤ (c.get_stats now).2.active_keys := by
  obtain ⟨h1, h2, h3⟩ := h
  have hfil : (c._expiry.filter (fun p => decide (now > p.2))).length ≤
      c._expiry.length := List.length_filter_le _ _
  have hsub : ∀ k, k ∈ c._expiry.map Prod.fst → k ∈ c._cache.map Prod.fst := by
    intro k hk
    rw [← dictLookup_isSome_iff] at hk ⊢
    exact h3 k hk
  have hlen : c._expiry.length ≤ c._cache.length :=
    length_le_of_nodup_keys_subset h2 hsub
  constructor
  · show ((c._expiry.filter (fun p => decide (now > p.2))).length : Int) ≤
      (c._cache.length : Int)
    omega
  · show (0 : Int) ≤ (c._cache.length : Int) -
      ((c._expiry.filter (fun p => decide (now > p.2))).length : Int)
    omega

/-- C9: every key in the expiry dict also lies in the value dict; this holds
in the initial state, is preserved by set, get, delete, and clear (together
with the key-uniqueness Python dicts provide), and it entails that get_stats
always reports expired_keys ≤ total_keys and active_keys ≥ 0. -/
theorem expiry_dom_subset_invariant :
    WF InMemoryCache.init ∧
    (∀ c now k v t, WF c → WF (InMemoryCache.set c now k v t)) ∧
    (∀ c now k, WF c → WF (InMemoryCache.get c now k).1) ∧
    (∀ c k, WF c → WF (InMemoryCache.delete c k)) ∧
    (∀ c, WF c → WF (InMemoryCache.clear c)) ∧
    (∀ c now, WF c →
      (InMemoryCache.get_stats c now).2.expired_keys ≤
        (InMemoryCache.get_stats c now).2.total_keys ∧
      0 ≤ (InMemoryCache.get_stats c now).2.active_keys) :=
  ⟨WF_init, WF_set, WF_get, WF_delete, WF_clear, get_stats_bounds⟩

/-- Witness for C9: the invariant transported through one concrete set on
the initial store. -/
theorem expiry_dom_subset_invariant_witness :
    WF (InMemoryCache.init.set 0 "k" (PyVal.int 1) 5) :=
  expiry_dom_subset_invariant.2.1 InMemoryCache.init 0 "k" (PyVal.int 1) 5
    expiry_dom_subset_invariant.1

end LocalLens
